import Mathlib

/-!
# Verification of the `dirdiff` directory-comparison engine

This file gives a shallow embedding of `src/main.rs` and proves the claims
of the specification against it.

A filesystem snapshot is modelled as a tree (`FsNode`): regular files carry
the result of a metadata (size) query and of streaming their full contents
(`FileData`), and directories carry a readability flag (modelling whether
`fs::read_dir` succeeds) together with their named entries.  Paths are lists
of path components.  Fallible filesystem operations return `Except String`.

The SHA-256 digest is implemented concretely (padding, message schedule and
compression over `Nat` arithmetic mod 2^32); the `sha2` crate's incremental
hasher is modelled by accumulating the fed bytes (`hashLoop` mirrors the
8 KiB read loop of `hash_file`) and applying the digest at `finalize`.
-/

deriving instance DecidableEq for Except

namespace Dirdiff

/-- A path relative to some root: a list of path components. -/
abbrev Path := List String

/-- A regular file in the snapshot: the result of reading its metadata size
(`fs::metadata(..).len()`) and the result of opening it and streaming its
full contents (`.error` models an open failure or a mid-stream read error). -/
structure FileData where
  size : Except String Nat
  bytes : Except String (List Nat)
deriving DecidableEq, Repr

/-- A node of the filesystem snapshot.  The `Bool` on a directory tells
whether `fs::read_dir` succeeds on it (`false` = unreadable directory). -/
inductive FsNode where
  | file : FileData → FsNode
  | dir : Bool → List (String × FsNode) → FsNode
deriving Repr

/-- `path.is_dir()` on a node. -/
def FsNode.isDir : FsNode → Bool
  | .dir _ _ => true
  | .file _ => false

/-- Resolve a relative path to a node of the snapshot (models the kernel's
path lookup for `a.join(rel)` style paths). -/
def resolve : Path → FsNode → Option FsNode
  | [], n => some n
  | _ :: _, .file _ => none
  | s :: rest, .dir _ entries =>
    match entries.find? (fun e => e.1 = s) with
    | some e => resolve rest e.2
    | none => none

mutual
/-- `collect_files` from `src/main.rs` (lines 17-36), on one node: the
relative paths of all regular files reachable by the work-list walk.  A
directory whose `read_dir` fails contributes nothing (its subtree is
skipped); a file contributes its relative path. -/
def collectFrom : FsNode → List Path
  | .file _ => [[]]
  | .dir false _ => []
  | .dir true entries => collectEntries entries

/-- The contribution of a directory's entry list to the walk. -/
def collectEntries : List (String × FsNode) → List Path
  | [] => []
  | e :: rest => (collectFrom e.2).map (fun p => e.1 :: p) ++ collectEntries rest
end

/-- The `HashSet` built by `collect_files`: the walk's paths with duplicates
removed (a `HashSet` holds each key once). -/
def collect_files (n : FsNode) : List Path :=
  (collectFrom n).dedup

/-- `collect_files` called on a root *path* as in the Rust source: a path
that does not resolve yields the empty set (`is_dir`/`is_file` are both
false on a nonexistent path, so the work list finds nothing). -/
def collect_files_at (fs : FsNode) (root : Path) : List Path :=
  match resolve root fs with
  | some n => collect_files n
  | none => []

/-- `direct_subdirs` from `src/main.rs` (lines 39-52): names of the
immediate child directories; empty when `read_dir` fails. -/
def direct_subdirs : FsNode → List String
  | .dir true entries => (entries.filter (fun e => e.2.isDir)).map (fun e => e.1)
  | _ => []

/-! ## SHA-256 (the `sha2` crate's `Sha256`) -/

/-- Truncate to a 32-bit word. -/
def w32 (x : Nat) : Nat := x % 4294967296

/-- Right rotation of a 32-bit word. -/
def rotr (n x : Nat) : Nat := (x >>> n) ||| w32 (x <<< (32 - n))

/-- SHA-256 `Ch(x,y,z)`. -/
def ch (x y z : Nat) : Nat := (x &&& y) ^^^ ((x ^^^ 4294967295) &&& z)

/-- SHA-256 `Maj(x,y,z)`. -/
def maj (x y z : Nat) : Nat := (x &&& y) ^^^ (x &&& z) ^^^ (y &&& z)

/-- SHA-256 `Σ₀`. -/
def bigSigma0 (x : Nat) : Nat := rotr 2 x ^^^ rotr 13 x ^^^ rotr 22 x

/-- SHA-256 `Σ₁`. -/
def bigSigma1 (x : Nat) : Nat := rotr 6 x ^^^ rotr 11 x ^^^ rotr 25 x

/-- SHA-256 `σ₀`. -/
def smallSigma0 (x : Nat) : Nat := rotr 7 x ^^^ rotr 18 x ^^^ (x >>> 3)

/-- SHA-256 `σ₁`. -/
def smallSigma1 (x : Nat) : Nat := rotr 17 x ^^^ rotr 19 x ^^^ (x >>> 10)

/-- The 64 SHA-256 round constants of FIPS 180-4, in decimal. -/
def sha256K : List Nat :=
  [1116352408, 1899447441, 3049323471, 3921009573, 961987163,
   1508970993, 2453635748, 2870763221, 3624381080, 310598401,
   607225278, 1426881987, 1925078388, 2162078206, 2614888103,
   3248222580, 3835390401, 4022224774, 264347078, 604807628,
   770255983, 1249150122, 1555081692, 1996064986, 2554220882,
   2821834349, 2952996808, 3210313671, 3336571891, 3584528711,
   113926993, 338241895, 666307205, 773529912, 1294757372,
   1396182291, 1695183700, 1986661051, 2177026350, 2456956037,
   2730485921, 2820302411, 3259730800, 3345764771, 3516065817,
   3600352804, 4094571909, 275423344, 430227734, 506948616,
   659060556, 883997877, 958139571, 1322822218, 1537002063,
   1747873779, 1955562222, 2024104815, 2227730452, 2361852424,
   2428436474, 2756734187, 3204031479, 3329325298]

/-- The SHA-256 initial hash value of FIPS 180-4, in decimal. -/
def sha256H0 : List Nat :=
  [1779033703, 3144134277, 1013904242, 2773480762,
   1359893119, 2600822924, 528734635, 1541459225]

/-- `k` bytes of `n`, big-endian. -/
def beBytes : Nat → Nat → List Nat
  | 0, _ => []
  | k + 1, n => beBytes k (n / 256) ++ [n % 256]

/-- SHA-256 message padding: `0x80`, zeros, then the 64-bit bit length. -/
def sha256Pad (msg : List Nat) : List Nat :=
  msg ++ [0x80] ++ List.replicate ((64 - (msg.length + 9) % 64) % 64) 0 ++
    beBytes 8 (msg.length * 8)

/-- Split a byte string into 64-byte blocks. -/
def sha256Blocks (l : List Nat) : List (List Nat) :=
  if l.isEmpty then [] else l.take 64 :: sha256Blocks (l.drop 64)
termination_by l.length
decreasing_by
  simp only [List.isEmpty_iff] at *
  cases l with
  | nil => simp_all
  | cons a t => simp [List.length_drop]; omega

/-- Pack bytes into big-endian 32-bit words. -/
def bytesToWords : List Nat → List Nat
  | b0 :: b1 :: b2 :: b3 :: rest =>
    (b0 * 16777216 + b1 * 65536 + b2 * 256 + b3) :: bytesToWords rest
  | _ => []

/-- Extend the 16 block words to the 64-entry message schedule. -/
def sha256Schedule (ws : List Nat) : List Nat :=
  (List.range 48).foldl
    (fun acc _ =>
      acc ++ [w32 (smallSigma1 (acc.getD (acc.length - 2) 0) +
        acc.getD (acc.length - 7) 0 +
        smallSigma0 (acc.getD (acc.length - 15) 0) +
        acc.getD (acc.length - 16) 0)])
    ws

/-- The eight working registers of the compression loop. -/
structure Regs where
  a : Nat
  b : Nat
  c : Nat
  d : Nat
  e : Nat
  f : Nat
  g : Nat
  h : Nat

/-- One round of the SHA-256 compression loop. -/
def sha256Round (r : Regs) (k w : Nat) : Regs :=
  let t1 := w32 (r.h + bigSigma1 r.e + ch r.e r.f r.g + k + w)
  let t2 := w32 (bigSigma0 r.a + maj r.a r.b r.c)
  ⟨w32 (t1 + t2), r.a, r.b, r.c, w32 (r.d + t1), r.e, r.f, r.g⟩

/-- Compress one 64-byte block into the running hash state. -/
def sha256Compress (hs : List Nat) (block : List Nat) : List Nat :=
  let ws := sha256Schedule (bytesToWords block)
  let i : Regs := ⟨hs.getD 0 0, hs.getD 1 0, hs.getD 2 0, hs.getD 3 0,
    hs.getD 4 0, hs.getD 5 0, hs.getD 6 0, hs.getD 7 0⟩
  let r := (sha256K.zip ws).foldl (fun r p => sha256Round r p.1 p.2) i
  [w32 (hs.getD 0 0 + r.a), w32 (hs.getD 1 0 + r.b), w32 (hs.getD 2 0 + r.c),
   w32 (hs.getD 3 0 + r.d), w32 (hs.getD 4 0 + r.e), w32 (hs.getD 5 0 + r.f),
   w32 (hs.getD 6 0 + r.g), w32 (hs.getD 7 0 + r.h)]

/-- The SHA-256 digest (32 bytes) of a full byte stream. -/
def sha256 (msg : List Nat) : List Nat :=
  (((sha256Blocks (sha256Pad msg)).foldl sha256Compress sha256H0).map
    (beBytes 4)).flatten

/-! ## The Content Equality Checker -/

/-- Open a file of the snapshot and stream its full contents. -/
def readFileBytes (fs : FsNode) (p : Path) : Except String (List Nat) :=
  match resolve p fs with
  | some (.file d) => d.bytes
  | some (.dir _ _) => .error "Is a directory"
  | none => .error "No such file or directory"

/-- Read a file's metadata size (`fs::metadata(p).len()`).  The engine only
queries metadata of paths that were enumerated as regular files. -/
def metadataLen (fs : FsNode) (p : Path) : Except String Nat :=
  match resolve p fs with
  | some (.file d) => d.size
  | some (.dir _ _) => .error "Is a directory"
  | none => .error "No such file or directory"

/-- The read loop of `hash_file` (lines 60-64): feed the stream to the
hasher in chunks of at most 8192 bytes; `acc` is the byte string fed to the
hasher so far (`hasher.update` concatenates). -/
def hashLoop (acc rem : List Nat) : List Nat :=
  if rem.isEmpty then acc
  else hashLoop (acc ++ rem.take 8192) (rem.drop 8192)
termination_by rem.length
decreasing_by
  simp only [List.isEmpty_iff] at *
  cases rem with
  | nil => simp_all
  | cons a t => simp [List.length_drop]; omega

/-- `hash_file` from `src/main.rs` (lines 55-70): open the file, feed it to
the hasher in 8 KiB chunks, and return the final digest; any open or read
error is propagated. -/
def hash_file (fs : FsNode) (p : Path) : Except String (List Nat) :=
  match readFileBytes fs p with
  | .error e => .error e
  | .ok content => .ok (sha256 (hashLoop [] content))

/-- `contents_differ` from `src/main.rs` (lines 73-80): compare metadata
sizes first and report `true` (differs) on a mismatch without touching the
contents; otherwise compare the two streamed digests.  Each `?` operator is
an early return of the error. -/
def contents_differ (na : FsNode) (pa : Path) (nb : FsNode) (pb : Path) :
    Except String Bool :=
  match metadataLen na pa with
  | .error e => .error e
  | .ok ma =>
    match metadataLen nb pb with
    | .error e => .error e
    | .ok mb =>
      if ma ≠ mb then .ok true
      else
        match hash_file na pa with
        | .error e => .error e
        | .ok ha =>
          match hash_file nb pb with
          | .error e => .error e
          | .ok hb => .ok (decide (ha ≠ hb))

/-! ## The Diff Engine -/

/-- Sort relative paths lexicographically (`Vec::sort` on `PathBuf`s, whose
order is lexicographic on components). -/
def sortPaths (l : List Path) : List Path :=
  l.insertionSort (· ≤ ·)

/-- Sort subdirectory names lexicographically. -/
def sortNames (l : List String) : List String :=
  l.insertionSort (· ≤ ·)

/-- The `ComparisonReport` of one matched subdirectory: the four ordered
sequences assembled by `print_diff` (lines 82-109). -/
structure Report where
  missingInB : List Path
  missingInA : List Path
  changed : List Path
  errored : List (Path × String)
deriving DecidableEq, Repr

/-- The accumulation loop of `print_diff` (lines 100-108) over the sorted
common paths: `Ok(true)` appends to `changed`, `Ok(false)` is skipped,
`Err` appends the path and the error's description to `errored`. -/
def checkCommon (na nb : FsNode) (common : List Path) :
    List Path × List (Path × String) :=
  common.foldl
    (fun acc rel =>
      match contents_differ na rel nb rel with
      | .ok true => (acc.1 ++ [rel], acc.2)
      | .ok false => acc
      | .error e => (acc.1, acc.2 ++ [(rel, e)]))
    ([], [])

/-- `print_diff` from `src/main.rs` (lines 82-156), as the report it
renders: set differences of the two `PathSet`s sorted lexicographically,
and — only when `check_hash` is set — the changed/errored classification of
the sorted intersection. -/
def print_diff (na nb : FsNode) (check_hash : Bool) : Report :=
  let files_a := collect_files na
  let files_b := collect_files nb
  let missing_in_b := sortPaths (files_a.filter (fun p => decide (p ∉ files_b)))
  let missing_in_a := sortPaths (files_b.filter (fun p => decide (p ∉ files_a)))
  let ce :=
    if check_hash then
      checkCommon na nb (sortPaths (files_a.filter (fun p => decide (p ∈ files_b))))
    else ([], [])
  ⟨missing_in_b, missing_in_a, ce.1, ce.2⟩

/-- The condition of line 117: with content verification on, the engine
prints the green "identical files and contents" line exactly when the
structure matches and nothing changed or errored. -/
def printsIdenticalWithHash (na nb : FsNode) : Bool :=
  let r := print_diff na nb true
  (r.missingInA.isEmpty && r.missingInB.isEmpty) &&
    (r.changed.isEmpty && r.errored.isEmpty)

/-- The per-subdirectory outcome of the `main` loop (lines 196-209):
a comparison report, a one-sided presence message, or the silent
fall-through `_ => ()` branch. -/
inductive Outcome where
  | compared : Report → Outcome
  | onlyInA : Outcome
  | onlyInB : Outcome
  | skipped : Outcome
deriving DecidableEq, Repr

/-- `path.is_dir()` for a joined path of the snapshot. -/
def isDirAt (n : FsNode) (p : Path) : Bool :=
  match resolve p n with
  | some m => m.isDir
  | none => false

/-- The sorted union of the two roots' direct subdirectories
(lines 184-194): union of the two `HashSet`s, then `Vec::sort`. -/
def subdirUnion (a b : FsNode) : List String :=
  sortNames ((direct_subdirs a ++ direct_subdirs b).dedup)

/-- The body of the `main` loop (lines 196-209) for one subdirectory name:
match on `(path_a.is_dir(), path_b.is_dir())`. -/
def processSub (a b : FsNode) (check_hash : Bool) (s : String) : Outcome :=
  match isDirAt a [s], isDirAt b [s] with
  | true, true =>
    match resolve [s] a, resolve [s] b with
    | some na, some nb => .compared (print_diff na nb check_hash)
    | _, _ => .skipped
  | true, false => .onlyInA
  | false, true => .onlyInB
  | false, false => .skipped

/-- The whole engine run: each subdirectory name of the sorted union, with
its outcome, in order. -/
def runEngine (a b : FsNode) (check_hash : Bool) : List (String × Outcome) :=
  (subdirUnion a b).map (fun s => (s, processSub a b check_hash s))

/-! ## Specification-side predicates -/

/-- `ReachFile n p`: the relative path `p` denotes a regular file reachable
from `n` by recursive descent through readable directories.  This is the
spec's notion of membership in the `PathSet`, written independently of the
work-list walk. -/
inductive ReachFile : FsNode → Path → Prop where
  | file (d : FileData) : ReachFile (.file d) []
  | step {entries : List (String × FsNode)} {name : String} {child : FsNode}
      {p : Path} (hmem : (name, child) ∈ entries) (hr : ReachFile child p) :
      ReachFile (.dir true entries) (name :: p)

/-- `ReachNode n p m`: descending from `n` along `p` through readable
directories arrives at the node `m`. -/
inductive ReachNode : FsNode → Path → FsNode → Prop where
  | refl (n : FsNode) : ReachNode n [] n
  | step {entries : List (String × FsNode)} {name : String} {child m : FsNode}
      {p : Path} (hmem : (name, child) ∈ entries) (hr : ReachNode child p m) :
      ReachNode (.dir true entries) (name :: p) m

mutual
/-- A snapshot is well formed when every directory's entry names are
distinct — true of any real directory listing. -/
def wfNode : FsNode → Bool
  | .file _ => true
  | .dir _ entries => decide (entries.map Prod.fst).Nodup && wfEntries entries

/-- All child nodes of an entry list are well formed. -/
def wfEntries : List (String × FsNode) → Bool
  | [] => true
  | e :: rest => wfNode e.2 && wfEntries rest
end

/-- Distinctness of the top-level entry names only (what a single
`read_dir` of the root guarantees). -/
def topNodup : FsNode → Prop
  | .file _ => True
  | .dir _ entries => (entries.map Prod.fst).Nodup

/-! ## Lemmas about the hashing layer -/

/-- The 8 KiB read loop feeds exactly the whole stream to the hasher. -/
theorem hashLoop_eq (acc rem : List Nat) : hashLoop acc rem = acc ++ rem := by
  induction acc, rem using hashLoop.induct with
  | case1 acc rem h =>
    rw [hashLoop]
    simp_all [List.isEmpty_iff]
  | case2 acc rem h ih =>
    rw [hashLoop, if_neg h, ih, List.append_assoc, List.take_append_drop]

/-- `hash_file` on a readable file is the SHA-256 digest of its stream. -/
theorem hash_file_ok {fs : FsNode} {p : Path} {c : List Nat}
    (h : readFileBytes fs p = .ok c) : hash_file fs p = .ok (sha256 c) := by
  simp [hash_file, h, hashLoop_eq]

/-- `hash_file` propagates a read failure. -/
theorem hash_file_err {fs : FsNode} {p : Path} {e : String}
    (h : readFileBytes fs p = .error e) : hash_file fs p = .error e := by
  simp [hash_file, h]

/-! ## Lemmas about the common-file classification loop -/

/-- The fold of `checkCommon`, with the accumulator made explicit:
`changed` collects the paths classified `Ok(true)` and `errored` the
erroring paths with their messages, both in traversal order. -/
theorem checkCommon_loop (na nb : FsNode) (l : List Path)
    (c : List Path) (er : List (Path × String)) :
    l.foldl
      (fun acc rel =>
        match contents_differ na rel nb rel with
        | .ok true => (acc.1 ++ [rel], acc.2)
        | .ok false => acc
        | .error e => (acc.1, acc.2 ++ [(rel, e)]))
      (c, er) =
    (c ++ l.filter (fun rel => decide (contents_differ na rel nb rel = .ok true)),
     er ++ l.filterMap (fun rel =>
       match contents_differ na rel nb rel with
       | .error e => some (rel, e)
       | .ok _ => none)) := by
  induction l generalizing c er with
  | nil => simp
  | cons rel rest ih =>
    rcases h : contents_differ na rel nb rel with e | b
    · simp [h, ih]
    · cases b <;> simp [h, ih]

/-- The `changed` component of `checkCommon`. -/
theorem checkCommon_fst (na nb : FsNode) (l : List Path) :
    (checkCommon na nb l).1 =
      l.filter (fun rel => decide (contents_differ na rel nb rel = .ok true)) := by
  rw [checkCommon, checkCommon_loop]
  simp

/-- The `errored` component of `checkCommon`. -/
theorem checkCommon_snd (na nb : FsNode) (l : List Path) :
    (checkCommon na nb l).2 =
      l.filterMap (fun rel =>
        match contents_differ na rel nb rel with
        | .error e => some (rel, e)
        | .ok _ => none) := by
  rw [checkCommon, checkCommon_loop]
  simp

/-! ## Lemmas about sorting -/

/-- Sorting does not change membership. -/
theorem mem_sortPaths {p : Path} {l : List Path} : p ∈ sortPaths l ↔ p ∈ l :=
  (List.perm_insertionSort _ l).mem_iff

/-- The sorted list is sorted. -/
theorem sorted_sortPaths (l : List Path) : (sortPaths l).Sorted (· ≤ ·) :=
  List.sorted_insertionSort _ l

/-- Sorting keeps distinctness. -/
theorem nodup_sortPaths {l : List Path} (h : l.Nodup) : (sortPaths l).Nodup :=
  ((List.perm_insertionSort _ l).nodup_iff).mpr h

/-- A sorted duplicate-free path list is strictly sorted. -/
theorem sorted_lt_sortPaths {l : List Path} (h : l.Nodup) :
    (sortPaths l).Sorted (· < ·) :=
  (sorted_sortPaths l).lt_of_le (nodup_sortPaths h)

/-- Sorting does not change membership (subdirectory names). -/
theorem mem_sortNames {s : String} {l : List String} :
    s ∈ sortNames l ↔ s ∈ l :=
  (List.perm_insertionSort _ l).mem_iff

/-- The sorted name list is sorted. -/
theorem sorted_sortNames (l : List String) : (sortNames l).Sorted (· ≤ ·) :=
  List.sorted_insertionSort _ l

/-- Sorting keeps distinctness (subdirectory names). -/
theorem nodup_sortNames {l : List String} (h : l.Nodup) :
    (sortNames l).Nodup :=
  ((List.perm_insertionSort _ l).nodup_iff).mpr h

/-! ## Lemmas about the walk -/

/-- Membership in an entry list's contribution to the walk. -/
theorem mem_collectEntries {entries : List (String × FsNode)} {q : Path} :
    q ∈ collectEntries entries ↔
      ∃ e ∈ entries, ∃ p, p ∈ collectFrom e.2 ∧ q = e.1 :: p := by
  induction entries with
  | nil => simp [collectEntries]
  | cons e rest ih =>
    simp only [collectEntries, List.mem_append, List.mem_map, ih,
      List.mem_cons]
    constructor
    · rintro (⟨p, hp, rfl⟩ | ⟨e', he', p, hp, rfl⟩)
      · exact ⟨e, Or.inl rfl, p, hp, rfl⟩
      · exact ⟨e', Or.inr he', p, hp, rfl⟩
    · rintro ⟨e', (rfl | he'), p, hp, rfl⟩
      · exact Or.inl ⟨p, hp, rfl⟩
      · exact Or.inr ⟨e', he', p, hp, rfl⟩

/-- The walk's output is exactly the set of relative paths of regular files
reachable through readable directories. -/
theorem mem_collectFrom : ∀ (n : FsNode) (p : Path),
    p ∈ collectFrom n ↔ ReachFile n p := by
  refine fun n => collectFrom.induct
    (fun n => ∀ p, p ∈ collectFrom n ↔ ReachFile n p)
    (fun entries => ∀ e ∈ entries, ∀ p, p ∈ collectFrom e.2 ↔ ReachFile e.2 p)
    ?_ ?_ ?_ ?_ ?_ n
  · intro d p
    simp only [collectFrom, List.mem_singleton]
    constructor
    · rintro rfl; exact .file d
    · rintro ⟨⟩; rfl
  · intro entries p
    simp only [collectFrom, List.not_mem_nil, false_iff]
    rintro ⟨⟩
  · intro entries ih p
    rw [collectFrom, mem_collectEntries]
    constructor
    · rintro ⟨e, he, q, hq, rfl⟩
      exact .step (show (e.1, e.2) ∈ entries from he) ((ih e he q).mp hq)
    · intro h
      cases h with
      | step hmem hr => exact ⟨(_, _), hmem, _, (ih _ hmem _).mpr hr, rfl⟩
  · intro e he
    exact absurd he (List.not_mem_nil e)
  · intro e rest h1 h2 e' he'
    rcases List.mem_cons.mp he' with rfl | he'
    · exact h1
    · exact h2 e' he'

/-- Membership in the `PathSet` (`HashSet`) built by `collect_files`. -/
theorem mem_collect_files {n : FsNode} {p : Path} :
    p ∈ collect_files n ↔ ReachFile n p := by
  rw [collect_files, List.mem_dedup, mem_collectFrom]

/-- The `PathSet` holds each path once. -/
theorem nodup_collect_files (n : FsNode) : (collect_files n).Nodup :=
  List.nodup_dedup _

/-! ## Lemmas about path resolution -/

/-- Resolution of a concatenated path is sequential resolution. -/
theorem resolve_append (p q : Path) (n : FsNode) :
    resolve (p ++ q) n = (resolve p n).bind (fun m => resolve q m) := by
  induction p generalizing n with
  | nil => simp [resolve]
  | cons s rest ih =>
    cases n with
    | file d => simp [resolve]
    | dir b entries =>
      simp only [List.cons_append, resolve]
      cases h : entries.find? (fun e => e.1 = s) with
      | none => simp
      | some e => simp [ih]

/-- In a directory with distinct entry names, `find?` returns the entry of
a present name. -/
theorem find?_entry {entries : List (String × FsNode)} {name : String}
    {child : FsNode} (hnd : (entries.map Prod.fst).Nodup)
    (hmem : (name, child) ∈ entries) :
    entries.find? (fun e => e.1 = name) = some (name, child) := by
  induction entries with
  | nil => cases hmem
  | cons e rest ih =>
    simp only [List.map_cons, List.nodup_cons, List.mem_map] at hnd
    rcases List.mem_cons.mp hmem with heq | hmem'
    · rw [← heq]
      exact List.find?_cons_of_pos _ (by simp)
    · have hne : ¬ e.1 = name := by
        intro h
        exact hnd.1 ⟨(name, child), hmem', by simp [h]⟩
      rw [List.find?_cons_of_neg _ (by simp [hne])]
      exact ih hnd.2 hmem'

/-- Unfold well-formedness of a directory. -/
theorem wfNode_dir {b : Bool} {entries : List (String × FsNode)}
    (h : wfNode (.dir b entries) = true) :
    (entries.map Prod.fst).Nodup ∧ wfEntries entries = true := by
  rw [wfNode, Bool.and_eq_true, decide_eq_true_iff] at h
  exact h

/-- Every child of a well-formed entry list is well formed. -/
theorem wfEntries_mem {entries : List (String × FsNode)}
    (h : wfEntries entries = true) {e : String × FsNode} (he : e ∈ entries) :
    wfNode e.2 = true := by
  induction entries with
  | nil => cases he
  | cons e' rest ih =>
    rw [wfEntries, Bool.and_eq_true] at h
    rcases List.mem_cons.mp he with rfl | he'
    · exact h.1
    · exact ih h.2 he'

/-- In a well-formed snapshot, every collected path resolves to a regular
file. -/
theorem reachFile_resolve : ∀ {n : FsNode} {p : Path}, ReachFile n p →
    wfNode n = true → ∃ d, resolve p n = some (.file d) := by
  intro n p h
  induction h with
  | file d => exact fun _ => ⟨d, rfl⟩
  | step hmem hr ih =>
    intro hwf
    obtain ⟨hnd, hent⟩ := wfNode_dir hwf
    obtain ⟨d, hd⟩ := ih (wfEntries_mem hent hmem)
    exact ⟨d, by simp only [resolve, find?_entry hnd hmem]; exact hd⟩

/-- In a well-formed snapshot, descent through readable directories agrees
with path resolution. -/
theorem reachNode_resolve : ∀ {n : FsNode} {p : Path} {m : FsNode},
    ReachNode n p m → wfNode n = true → resolve p n = some m := by
  intro n p m h
  induction h with
  | refl n => exact fun _ => rfl
  | step hmem hr ih =>
    intro hwf
    obtain ⟨hnd, hent⟩ := wfNode_dir hwf
    simp only [resolve, find?_entry hnd hmem]
    exact ih (wfEntries_mem hent hmem)

/-- A file collected below a reachable node is collected from the top,
under the concatenated relative path. -/
theorem reachNode_collect {n : FsNode} {p : Path} {m : FsNode} {q : Path}
    (h : ReachNode n p m) (hq : q ∈ collectFrom m) :
    p ++ q ∈ collectFrom n := by
  induction h with
  | refl n => simpa using hq
  | step hmem hr ih =>
    rw [List.cons_append, collectFrom]
    exact mem_collectEntries.mpr ⟨(_, _), hmem, _, ih hq, rfl⟩

/-- Nothing the walk collects from a directory has an empty relative path. -/
theorem collectFrom_dir_ne_nil {b : Bool} {entries : List (String × FsNode)}
    {q : Path} (h : q ∈ collectFrom (.dir b entries)) : q ≠ [] := by
  cases b with
  | false => cases h
  | true =>
    rw [collectFrom] at h
    obtain ⟨e, _, p, _, rfl⟩ := mem_collectEntries.mp h
    simp

/-- In a well-formed snapshot, a collected file path has no collected
proper extension: the walk never descends through a regular file. -/
theorem collect_no_extension {n : FsNode} {p q : Path}
    (hwf : wfNode n = true) (hp : p ∈ collectFrom n) (hq : q ≠ []) :
    p ++ q ∉ collectFrom n := by
  intro hin
  obtain ⟨d, hd⟩ := reachFile_resolve ((mem_collectFrom n p).mp hp) hwf
  obtain ⟨d', hd'⟩ := reachFile_resolve ((mem_collectFrom n _).mp hin) hwf
  rw [resolve_append, hd] at hd'
  cases q with
  | nil => exact hq rfl
  | cons s rest => simp [resolve] at hd'

/-- A name listed by `direct_subdirs` is a directory under the root, as
long as the root's entry names are distinct. -/
theorem isDirAt_of_mem_subdirs {n : FsNode} {s : String}
    (hnd : topNodup n) (h : s ∈ direct_subdirs n) : isDirAt n [s] = true := by
  cases n with
  | file d => cases h
  | dir b entries =>
    cases b with
    | false => cases h
    | true =>
      rw [direct_subdirs] at h
      obtain ⟨e, he, rfl⟩ := List.mem_map.mp h
      have hmem : (e.1, e.2) ∈ entries := by
        simpa using List.mem_of_mem_filter he
      have hdir : e.2.isDir = true := by simpa using List.of_mem_filter he
      have hnd' : (entries.map Prod.fst).Nodup := hnd
      rw [isDirAt]
      simp only [resolve, find?_entry hnd' hmem]
      exact hdir

/-- A positive `is_dir` check means the path resolves to a directory. -/
theorem isDirAt_resolve {n : FsNode} {p : Path} (h : isDirAt n p = true) :
    ∃ m, resolve p n = some m ∧ m.isDir = true := by
  rw [isDirAt] at h
  cases hr : resolve p n with
  | none => rw [hr] at h; cases h
  | some m => rw [hr] at h; exact ⟨m, rfl, h⟩

/-! ## The claims -/

/-- C1: for every pair of readable files whose metadata sizes are equal,
`contents_differ` classifies them as "same" (`Ok(false)`) if and only if
the SHA-256 digests of their full byte streams — which `hash_file` computes
by folding fixed-size 8 KiB chunks into the hasher — are equal. -/
theorem contents_same_iff_digest_eq (na nb : FsNode) (pa pb : Path)
    (s : Nat) (ba bb : List Nat)
    (hma : metadataLen na pa = .ok s) (hmb : metadataLen nb pb = .ok s)
    (hba : readFileBytes na pa = .ok ba) (hbb : readFileBytes nb pb = .ok bb) :
    contents_differ na pa nb pb = .ok false ↔ sha256 ba = sha256 bb := by
  rw [contents_differ]
  simp [hma, hmb, hash_file_ok hba, hash_file_ok hbb]

/-- Witness for C1 at two one-byte files of equal size. -/
theorem contents_same_iff_digest_eq_witness :
    contents_differ (.file ⟨.ok 1, .ok [104]⟩) [] (.file ⟨.ok 1, .ok [105]⟩) []
        = .ok false ↔
      sha256 [104] = sha256 [105] :=
  contents_same_iff_digest_eq (.file ⟨.ok 1, .ok [104]⟩)
    (.file ⟨.ok 1, .ok [105]⟩) [] [] 1 [104] [105] rfl rfl rfl rfl

/-- C2: when the two metadata sizes differ, `contents_differ` reports
"differs" (`Ok(true)`) immediately.  The contents of both files are left
universally quantified — in particular they may be read errors — so the
classification cannot depend on opening, reading, or digesting either
file. -/
theorem size_mismatch_differs (na nb : FsNode) (pa pb : Path) (sa sb : Nat)
    (hma : metadataLen na pa = .ok sa) (hmb : metadataLen nb pb = .ok sb)
    (hne : sa ≠ sb) : contents_differ na pa nb pb = .ok true := by
  rw [contents_differ]
  simp [hma, hmb, hne]

/-- Witness for C2 at two unreadable files of different sizes. -/
theorem size_mismatch_differs_witness :
    contents_differ (.file ⟨.ok 1, .error "unreadable"⟩) []
      (.file ⟨.ok 2, .error "unreadable"⟩) [] = .ok true :=
  size_mismatch_differs (.file ⟨.ok 1, .error "unreadable"⟩)
    (.file ⟨.ok 2, .error "unreadable"⟩) [] [] 1 2 rfl rfl (by decide)

/-- C4: `missingInB` is exactly the strictly (lexicographically) sorted set
difference `PathSet(A) − PathSet(B)`, and `missingInA` is exactly the
sorted difference `PathSet(B) − PathSet(A)` — a strictly sorted list is
determined by its membership set. -/
theorem missing_sorted_set_difference (na nb : FsNode) (chk : Bool) :
    ((print_diff na nb chk).missingInB.Sorted (· < ·) ∧
      ∀ p, p ∈ (print_diff na nb chk).missingInB ↔
        p ∈ collect_files na ∧ p ∉ collect_files nb) ∧
    ((print_diff na nb chk).missingInA.Sorted (· < ·) ∧
      ∀ p, p ∈ (print_diff na nb chk).missingInA ↔
        p ∈ collect_files nb ∧ p ∉ collect_files na) := by
  refine ⟨⟨?_, ?_⟩, ⟨?_, ?_⟩⟩
  · exact sorted_lt_sortPaths ((nodup_collect_files na).filter _)
  · intro p
    simp [print_diff, mem_sortPaths, List.mem_filter]
  · exact sorted_lt_sortPaths ((nodup_collect_files nb).filter _)
  · intro p
    simp [print_diff, mem_sortPaths, List.mem_filter]

/-- C8: `collect_files`, run on a root path, returns exactly the set of
root-relative paths of regular files reachable by recursive descent
(directories are traversed, never included), and returns the empty set —
rather than failing — when the root does not exist or its directory cannot
be read. -/
theorem collect_files_at_spec (fs : FsNode) (root : Path) :
    (∀ p, p ∈ collect_files_at fs root ↔
      ∃ n, resolve root fs = some n ∧ ReachFile n p) ∧
    ((resolve root fs = none ∨
        ∃ entries, resolve root fs = some (.dir false entries)) →
      collect_files_at fs root = []) := by
  constructor
  · intro p
    rw [collect_files_at]
    cases h : resolve root fs with
    | none => simp
    | some n => simp [mem_collect_files]
  · rintro (h | ⟨entries, h⟩) <;>
      simp [collect_files_at, h, collect_files, collectFrom]

/-- Witness for C8: a nonexistent root yields the empty set. -/
theorem collect_files_at_spec_witness :
    collect_files_at (.dir true []) ["gone"] = [] :=
  (collect_files_at_spec (.dir true []) ["gone"]).2 (Or.inl rfl)

/-- C6: the engine's loop visits exactly the union of the immediate
subdirectory names of the two roots, in strictly increasing lexicographic
order — hence each name exactly once. -/
theorem run_visits_sorted_union (a b : FsNode) (chk : Bool) :
    ((runEngine a b chk).map Prod.fst).Sorted (· < ·) ∧
    ∀ s, s ∈ (runEngine a b chk).map Prod.fst ↔
      s ∈ direct_subdirs a ∨ s ∈ direct_subdirs b := by
  have hmap : (runEngine a b chk).map Prod.fst = subdirUnion a b := by
    simp [runEngine, Function.comp_def]
  rw [hmap]
  constructor
  · exact (sorted_sortNames _).lt_of_le (nodup_sortNames (List.nodup_dedup _))
  · intro s
    rw [subdirUnion, mem_sortNames, List.mem_dedup, List.mem_append]

/-- C7: a union member that is a directory on exactly one side is reported
as present only on that side, and the engine does not descend: the
`onlyInA`/`onlyInB` outcomes carry no report, so no file below the
subdirectory can appear in any missing, changed or errored sequence. -/
theorem one_sided_subdir_only_in (a b : FsNode) (chk : Bool) (s : String)
    (h : isDirAt a [s] ≠ isDirAt b [s]) :
    processSub a b chk s =
      (if isDirAt a [s] then Outcome.onlyInA else Outcome.onlyInB) := by
  rw [processSub]
  cases ha : isDirAt a [s] <;> cases hb : isDirAt b [s]
  · exact absurd (ha.trans hb.symm) h
  · simp
  · simp
  · exact absurd (ha.trans hb.symm) h

/-- Witness for C7: `extra/` exists only under root A, with a child file
that consequently shows up in no sequence. -/
theorem one_sided_subdir_only_in_witness :
    processSub
      (.dir true [("extra", .dir true [("f", .file ⟨.ok 1, .ok [0]⟩)])])
      (.dir true []) true "extra" = Outcome.onlyInA := by
  have h := one_sided_subdir_only_in
    (.dir true [("extra", .dir true [("f", .file ⟨.ok 1, .ok [0]⟩)])])
    (.dir true []) true "extra" (by decide)
  simpa using h

/-- The `changed` sequence of a verified report, via `checkCommon`. -/
theorem print_diff_changed (na nb : FsNode) :
    (print_diff na nb true).changed =
      (sortPaths ((collect_files na).filter
          (fun p => decide (p ∈ collect_files nb)))).filter
        (fun rel => decide (contents_differ na rel nb rel = .ok true)) := by
  simp [print_diff, checkCommon_fst]

/-- The `errored` sequence of a verified report, via `checkCommon`. -/
theorem print_diff_errored (na nb : FsNode) :
    (print_diff na nb true).errored =
      (sortPaths ((collect_files na).filter
          (fun p => decide (p ∈ collect_files nb)))).filterMap
        (fun rel =>
          match contents_differ na rel nb rel with
          | .error e => some (rel, e)
          | .ok _ => none) := by
  simp [print_diff, checkCommon_snd]

/-- C3: a common file on which the checker fails is reported, with its
error description, in `errored` — never in `changed` — and the engine still
classifies every other common file of the subdirectory. -/
theorem checker_error_reported (na nb : FsNode) (rel : Path) (e : String)
    (ha : rel ∈ collect_files na) (hb : rel ∈ collect_files nb)
    (herr : contents_differ na rel nb rel = .error e) :
    (rel, e) ∈ (print_diff na nb true).errored ∧
    rel ∉ (print_diff na nb true).changed ∧
    ∀ rel', rel' ∈ collect_files na → rel' ∈ collect_files nb →
      contents_differ na rel' nb rel' = .ok true →
      rel' ∈ (print_diff na nb true).changed := by
  refine ⟨?_, ?_, ?_⟩
  · rw [print_diff_errored]
    refine List.mem_filterMap.mpr ⟨rel, ?_, by rw [herr]⟩
    rw [mem_sortPaths, List.mem_filter]
    exact ⟨ha, by simpa using hb⟩
  · rw [print_diff_changed]
    intro hmem
    have h2 := (List.mem_filter.mp hmem).2
    rw [herr] at h2
    simp at h2
  · intro rel' ha' hb' hok
    rw [print_diff_changed]
    refine List.mem_filter.mpr ⟨?_, by simp [hok]⟩
    rw [mem_sortPaths, List.mem_filter]
    exact ⟨ha', by simpa using hb'⟩

/-- Witness for C3: `x` is unreadable on side A, readable on side B. -/
theorem checker_error_reported_witness :
    (["x"], "boom") ∈
      (print_diff (.dir true [("x", .file ⟨.ok 1, .error "boom"⟩)])
        (.dir true [("x", .file ⟨.ok 1, .ok [0]⟩)]) true).errored ∧
    ["x"] ∉
      (print_diff (.dir true [("x", .file ⟨.ok 1, .error "boom"⟩)])
        (.dir true [("x", .file ⟨.ok 1, .ok [0]⟩)]) true).changed :=
  ⟨(checker_error_reported (.dir true [("x", .file ⟨.ok 1, .error "boom"⟩)])
      (.dir true [("x", .file ⟨.ok 1, .ok [0]⟩)]) ["x"] "boom"
      (by decide) (by decide) (by decide)).1,
   (checker_error_reported (.dir true [("x", .file ⟨.ok 1, .error "boom"⟩)])
      (.dir true [("x", .file ⟨.ok 1, .ok [0]⟩)]) ["x"] "boom"
      (by decide) (by decide) (by decide)).2.1⟩

/-- C5: with content verification on, the engine reports "Identical" if and
only if `missingInA`, `missingInB`, `changed` and `errored` are all empty;
in particular any two sides with the same file set whose common files are
readable with equal sizes and equal contents are reported Identical. -/
theorem identical_iff_all_empty (na nb : FsNode) :
    (printsIdenticalWithHash na nb = true ↔
      (print_diff na nb true).missingInA = [] ∧
      (print_diff na nb true).missingInB = [] ∧
      (print_diff na nb true).changed = [] ∧
      (print_diff na nb true).errored = []) ∧
    ((∀ p, p ∈ collect_files na ↔ p ∈ collect_files nb) →
     (∀ p, p ∈ collect_files na →
       ∃ sz bs, metadataLen na p = .ok sz ∧ metadataLen nb p = .ok sz ∧
         readFileBytes na p = .ok bs ∧ readFileBytes nb p = .ok bs) →
     printsIdenticalWithHash na nb = true) := by
  have hiff : printsIdenticalWithHash na nb = true ↔
      (print_diff na nb true).missingInA = [] ∧
      (print_diff na nb true).missingInB = [] ∧
      (print_diff na nb true).changed = [] ∧
      (print_diff na nb true).errored = [] := by
    simp [printsIdenticalWithHash, List.isEmpty_iff, and_assoc]
  refine ⟨hiff, fun hset hok => hiff.mpr ?_⟩
  have hsame : ∀ rel ∈ (collect_files na).filter
      (fun p => decide (p ∈ collect_files nb)),
      contents_differ na rel nb rel = .ok false := by
    intro rel hrel
    obtain ⟨sz, bs, hma, hmb, hba, hbb⟩ := hok rel (List.mem_filter.mp hrel).1
    rw [contents_differ]
    simp [hma, hmb, hash_file_ok hba, hash_file_ok hbb]
  refine ⟨?_, ?_, ?_, ?_⟩
  · have h0 : (collect_files nb).filter
        (fun p => !decide (p ∈ collect_files na)) = [] := by
      rw [List.filter_eq_nil_iff]
      intro p hp
      simp [(hset p).mpr hp]
    simp [print_diff, sortPaths, h0]
  · have h0 : (collect_files na).filter
        (fun p => !decide (p ∈ collect_files nb)) = [] := by
      rw [List.filter_eq_nil_iff]
      intro p hp
      simp [(hset p).mp hp]
    simp [print_diff, sortPaths, h0]
  · rw [print_diff_changed, List.filter_eq_nil_iff]
    intro rel hrel
    rw [mem_sortPaths] at hrel
    simp [hsame rel hrel]
  · rw [print_diff_errored, List.filterMap_eq_nil_iff]
    intro rel hrel
    rw [mem_sortPaths] at hrel
    rw [hsame rel hrel]

/-- Witness for C5: a single readable file, identical on both sides. -/
theorem identical_iff_all_empty_witness :
    printsIdenticalWithHash (.dir true [("f", .file ⟨.ok 1, .ok [7]⟩)])
      (.dir true [("f", .file ⟨.ok 1, .ok [7]⟩)]) = true :=
  (identical_iff_all_empty (.dir true [("f", .file ⟨.ok 1, .ok [7]⟩)])
      (.dir true [("f", .file ⟨.ok 1, .ok [7]⟩)])).2
    (fun _ => Iff.rfl)
    (fun p hp => by
      have hp' : p = ["f"] := by
        have : collect_files (FsNode.dir true [("f", .file ⟨.ok 1, .ok [7]⟩)])
            = [["f"]] := by decide
        rw [this] at hp
        simpa using hp
      rw [hp']
      exact ⟨1, [7], rfl, rfl, rfl, rfl⟩)

/-- C10: on a fixed snapshot whose root listings have distinct names, every
union member yields exactly one outcome in the run, and that outcome is a
comparison or a one-sided report — the silent fall-through branch of the
`match` (neither side a directory) is unreachable. -/
theorem union_member_processed (a b : FsNode) (chk : Bool) (s : String)
    (hna : topNodup a) (hnb : topNodup b) (hmem : s ∈ subdirUnion a b) :
    (s, processSub a b chk s) ∈ runEngine a b chk ∧
    (∀ o, (s, o) ∈ runEngine a b chk → o = processSub a b chk s) ∧
    processSub a b chk s ≠ .skipped := by
  refine ⟨List.mem_map.mpr ⟨s, hmem, rfl⟩, ?_, ?_⟩
  · intro o ho
    obtain ⟨s', _, heq⟩ := List.mem_map.mp ho
    injection heq with h1 h2
    subst h1
    exact h2.symm
  · have hd : isDirAt a [s] = true ∨ isDirAt b [s] = true := by
      rw [subdirUnion, mem_sortNames, List.mem_dedup, List.mem_append] at hmem
      rcases hmem with h | h
      · exact Or.inl (isDirAt_of_mem_subdirs hna h)
      · exact Or.inr (isDirAt_of_mem_subdirs hnb h)
    cases ha : isDirAt a [s] <;> cases hb : isDirAt b [s]
    · rw [ha, hb] at hd
      rcases hd with h | h <;> cases h
    · simp [processSub, ha, hb]
    · simp [processSub, ha, hb]
    · obtain ⟨ma, hra, _⟩ := isDirAt_resolve ha
      obtain ⟨mb, hrb, _⟩ := isDirAt_resolve hb
      simp [processSub, ha, hb, hra, hrb]

/-- Witness for C10: `sub` exists on both sides. -/
theorem union_member_processed_witness :
    processSub (.dir true [("sub", .dir true [])])
      (.dir true [("sub", .dir true [])]) true "sub" ≠ Outcome.skipped :=
  (union_member_processed (.dir true [("sub", .dir true [])])
      (.dir true [("sub", .dir true [])]) true "sub"
      (show (List.map Prod.fst [("sub", FsNode.dir true [])]).Nodup by decide)
      (show (List.map Prod.fst [("sub", FsNode.dir true [])]).Nodup by decide)
      (by decide)).2.2

/-- C9: a relative path that is a regular file on side A but a directory on
side B belongs to `PathSet(A)` and not to `PathSet(B)` — only regular files
are collected — so it is reported in `missingInB`, is never
content-compared (neither `changed` nor `errored` can mention it), and the
files nested below B's directory of that name land in `missingInA`. -/
theorem file_dir_conflict (na nb : FsNode) (chk : Bool) (rel : Path)
    (br : Bool) (bentries : List (String × FsNode))
    (hwfa : wfNode na = true) (hwfb : wfNode nb = true)
    (ha : rel ∈ collect_files na)
    (hreach : ReachNode nb rel (.dir br bentries)) :
    rel ∉ collect_files nb ∧
    rel ∈ (print_diff na nb chk).missingInB ∧
    rel ∉ (print_diff na nb chk).changed ∧
    (∀ e, (rel, e) ∉ (print_diff na nb chk).errored) ∧
    ∀ q, q ∈ collect_files (.dir br bentries) →
      rel ++ q ∈ (print_diff na nb chk).missingInA := by
  have hres : resolve rel nb = some (.dir br bentries) :=
    reachNode_resolve hreach hwfb
  have hnotb : rel ∉ collect_files nb := by
    intro hin
    obtain ⟨d, hd⟩ := reachFile_resolve (mem_collect_files.mp hin) hwfb
    rw [hres] at hd
    cases hd
  refine ⟨hnotb, ?_, ?_, ?_, ?_⟩
  · simp [print_diff, mem_sortPaths, List.mem_filter, ha, hnotb]
  · cases chk with
    | false =>
      intro hmem
      simp [print_diff] at hmem
    | true =>
      rw [print_diff_changed]
      intro hmem
      have h2 := (List.mem_filter.mp
        (mem_sortPaths.mp (List.mem_filter.mp hmem).1)).2
      simp at h2
      exact hnotb h2
  · intro e
    cases chk with
    | false =>
      intro hmem
      simp [print_diff] at hmem
    | true =>
      rw [print_diff_errored]
      intro hmem
      obtain ⟨x, hx, hfx⟩ := List.mem_filterMap.mp hmem
      have hxrel : x = rel := by
        rcases hcd : contents_differ na x nb x with e' | b'
        · rw [hcd] at hfx
          cases hfx
          rfl
        · rw [hcd] at hfx
          cases hfx
      subst hxrel
      have h2 := (List.mem_filter.mp (mem_sortPaths.mp hx)).2
      simp at h2
      exact hnotb h2
  · intro q hq
    have hqc : q ∈ collectFrom (.dir br bentries) := List.mem_dedup.mp hq
    have hinb : rel ++ q ∈ collect_files nb := by
      rw [collect_files, List.mem_dedup]
      exact reachNode_collect hreach hqc
    have hnina : rel ++ q ∉ collect_files na := by
      rw [collect_files, List.mem_dedup]
      exact collect_no_extension hwfa (List.mem_dedup.mp ha)
        (collectFrom_dir_ne_nil hqc)
    simp [print_diff, mem_sortPaths, List.mem_filter, hinb, hnina]

/-- Witness for C9: `x` is a file under A and a directory (holding `y`)
under B. -/
theorem file_dir_conflict_witness :
    ["x"] ∈ (print_diff (.dir true [("x", .file ⟨.ok 1, .ok [1]⟩)])
      (.dir true [("x", .dir true [("y", .file ⟨.ok 1, .ok [2]⟩)])])
      true).missingInB ∧
    ["x", "y"] ∈ (print_diff (.dir true [("x", .file ⟨.ok 1, .ok [1]⟩)])
      (.dir true [("x", .dir true [("y", .file ⟨.ok 1, .ok [2]⟩)])])
      true).missingInA :=
  ⟨(file_dir_conflict (.dir true [("x", .file ⟨.ok 1, .ok [1]⟩)])
      (.dir true [("x", .dir true [("y", .file ⟨.ok 1, .ok [2]⟩)])])
      true ["x"] true [("y", .file ⟨.ok 1, .ok [2]⟩)]
      (by decide) (by decide) (by decide)
      (.step (List.mem_singleton.mpr rfl) (.refl _))).2.1,
   (file_dir_conflict (.dir true [("x", .file ⟨.ok 1, .ok [1]⟩)])
      (.dir true [("x", .dir true [("y", .file ⟨.ok 1, .ok [2]⟩)])])
      true ["x"] true [("y", .file ⟨.ok 1, .ok [2]⟩)]
      (by decide) (by decide) (by decide)
      (.step (List.mem_singleton.mpr rfl) (.refl _))).2.2.2.2
     ["y"] (by decide)⟩

end Dirdiff
